import Mathlib

/-!
Verification of the session log-mining pipeline (`discover.py`, `parse.py`,
`search.py`, `utils.py`).

Strings are modelled as `List Char` (`Str`).  Python `datetime` values are
modelled by the structure `Time`: `sec` is the comparable instant (epoch
seconds), `year` the calendar year, and `aware` records whether the value
carries a UTC offset (Python raises `TypeError` when comparing an
offset-aware and an offset-naive datetime; this matters for date
filtering).  A record's `timestamp` field is the raw timestamp field as
the pipeline stores and re-parses it, a `TsField`: `missing` for an absent
field (Python stores `None`, and re-parsing it in the duration back-fill
loop raises an uncaught `AttributeError`), `unparseable` for a present
string that `parse_timestamp` cannot parse (every consumer treats it as
"no value"), `parsed t` for a string parsing to `t`.  Records are the JSON objects
produced by `read_jsonl_file`; blank and undecodable lines are skipped
identically by every entry point of the code, so all functions are stated
over the common decoded record list.  Within the structural parser,
timestamp subtraction is modelled on `sec`; the model covers files whose
parsed timestamps are uniformly aware or uniformly naive (on mixed files
the Python code raises instead of returning a value).  Python's
case-insensitive literal regex search is modelled as first-occurrence
search after per-character `toLower`, and `str.strip` as trimming the six
ASCII whitespace characters.
-/

abbrev Str := List Char

/-- The six characters stripped by Python `str.strip()` on ASCII data. -/
def pyWSb (c : Char) : Bool :=
  c = ' ' || c = '\t' || c = '\n' || c = '\r' || c = '\x0b' || c = '\x0c'

/-- Model of Python `str.lstrip()`. -/
def pyLStrip (s : Str) : Str := s.dropWhile pyWSb

/-- Model of Python `str.rstrip()`. -/
def pyRStrip (s : Str) : Str := (s.reverse.dropWhile pyWSb).reverse

/-- Model of Python `str.strip()`. -/
def pyStrip (s : Str) : Str := pyRStrip (pyLStrip s)

/-- Model of a Python `datetime`: `aware` is true when the value carries a
UTC offset (e.g. parsed from a `Z`-suffixed ISO string), `year` is the
calendar year and `sec` the comparable instant in seconds. -/
structure Time where
  aware : Bool
  year : Int
  sec : Int
deriving DecidableEq, Repr

/-- Model of Python comparison `a < b` on datetimes: raises (`.error`) when one side
is offset-aware and the other offset-naive. -/
def pyLtTime (a b : Time) : Except Unit Bool :=
  if a.aware = b.aware then .ok (decide (a.sec < b.sec)) else .error ()

/-- The raw `timestamp` field of a record as the pipeline sees it.
`missing` models an absent field: `record.get("timestamp")` is `None`,
which the full parser stores into the turn, and the duration back-fill
loop then calls `parse_timestamp(None)`, where `None.endswith` raises
`AttributeError` — not caught by the `except (ValueError, TypeError)` —
so `parse_session` crashes.  `unparseable` models a present string (the
empty string included) on which `parse_timestamp` returns `None`, which
every consumer skips.  `parsed t` models a string parsing to `t`. -/
inductive TsField where
  | missing
  | unparseable
  | parsed (t : Time)
deriving DecidableEq, Repr

/-- The `parse_timestamp` view of a raw timestamp field that is safe to
re-parse (both failure modes give "no value"). -/
def TsField.toOption : TsField → Option Time
  | .parsed t => some t
  | _ => none

/-- A string-valued or non-string entry of a `tool_use` input mapping. -/
inductive InputVal where
  | str (s : Str)
  | other
deriving DecidableEq, Repr

/-- A content block nested inside a `tool_result` block's list content. -/
inductive RBlock where
  | text (s : Str)
  | other
deriving DecidableEq, Repr

/-- The `content` field of a `tool_result` block: raw text or a list of
nested blocks. -/
inductive RContent where
  | str (s : Str)
  | blocks (bs : List RBlock)
deriving DecidableEq, Repr

/-- A typed content block of a `user`/`assistant` message content list. -/
inductive Block where
  | text (s : Str)
  | thinking (s : Str)
  | toolUse (id name : Str) (input : List (Str × InputVal))
  | toolResult (toolUseId : Str) (content : RContent)
  | other
deriving DecidableEq, Repr

/-- The `message.content` field: raw text or a list of typed blocks. -/
inductive Content where
  | str (s : Str)
  | blocks (bs : List Block)
deriving DecidableEq, Repr

/-- The `usage` counters of an assistant record; `none` models a missing
field (`usage.get(..., 0)` treats it as zero). -/
structure Usage where
  inputTokens : Option Nat := none
  outputTokens : Option Nat := none
  cacheRead : Option Nat := none
  cacheCreate : Option Nat := none
deriving DecidableEq, Repr

/-- One decoded line of a session JSONL file, restricted to the fields the
pipeline reads.  `timestamp` holds the raw timestamp field (see
`TsField`). -/
structure Record where
  rtype : Str
  timestamp : TsField := .missing
  content : Content := .str []
  usage : Usage := {}
deriving DecidableEq, Repr

def userT : Str := "user".data

def assistantT : Str := "assistant".data

/-! ## utils.py -/

/-- Model of `utils.cwd_to_project_path`, restricted to the directory name it
builds: strip leading slashes, replace the remaining slashes with dashes,
prefix a dash. -/
def cwdToProjectName (cwd : Str) : Str :=
  '-' :: ((cwd.dropWhile (· = '/')).map (fun c => if c = '/' then '-' else c))

/-- Model of `utils.project_path_to_cwd`: drop one leading dash when present,
replace dashes with slashes, prefix a slash. -/
def projectNameToCwd (name : Str) : Str :=
  let n := match name with
    | '-' :: rest => rest
    | other => other
  '/' :: (n.map (fun c => if c = '-' then '/' else c))

/-- Model of `utils.truncate_text`: identity when the text fits, otherwise the first
`n - 3` characters right-stripped with `"..."` appended. -/
def truncateText (n : Nat) (s : Str) : Str :=
  if s.length ≤ n then s else pyRStrip (s.take (n - 3)) ++ "...".data

/-! ## Quick metadata scan (`utils.get_session_quick_metadata`) -/

/-- The preview text the quick scan reads off one user record: string
content is stripped; list content contributes the first `text` block's
text, stripped; anything else gives the empty string. -/
def previewText : Content → Str
  | .str s => pyStrip s
  | .blocks bs =>
    match bs.findSome? (fun b => match b with | .text s => some s | _ => none) with
    | some s => pyStrip s
    | none => []

/-- The quick scan keeps a preview text only when it is non-empty and does
not start with `<` or `/`. -/
def substantiveText (t : Str) : Bool :=
  match t with
  | [] => false
  | c :: _ => !(c = '<' : Bool) && !(c = '/' : Bool)

/-- Accumulator of the quick single-pass scan. -/
structure QState where
  firstMsg : Option Str := none
  firstTs : Option Time := none
  lastTs : Option Time := none
  msgCount : Nat := 0
deriving DecidableEq, Repr

/-- Timestamp tracking shared by the quick scan and the full parser: the
first and last parseable timestamps seen so far. -/
def tsTrack (ft lt : Option Time) (ts : Option Time) : Option Time × Option Time :=
  match ts with
  | some t => (match ft with | none => some t | some f => some f, some t)
  | none => (ft, lt)

/-- One record of the quick scan. -/
def qstep (s : QState) (r : Record) : QState :=
  let tl := tsTrack s.firstTs s.lastTs r.timestamp.toOption
  let s := { s with firstTs := tl.1, lastTs := tl.2 }
  let s :=
    if s.firstMsg = none ∧ r.rtype = userT then
      let t := previewText r.content
      if substantiveText t then { s with firstMsg := some t } else s
    else s
  if r.rtype = userT ∨ r.rtype = assistantT then
    { s with msgCount := s.msgCount + 1 }
  else s

/-- The metadata record returned by the quick scan (the fields the claims
are about). -/
structure QuickMeta where
  date : Time
  durationSec : Int
  preview : Str
  messageCount : Nat
deriving DecidableEq, Repr

def noPreviewS : Str := "(no preview)".data

/-- Model of `utils.get_session_quick_metadata` on the decoded record list: `none`
when no timestamp ever parsed or the first parsed timestamp's year is
below 2020.  `first_user_message or "(no preview)"` is `getD` because a
kept preview text is never empty. -/
def getSessionQuickMetadata (rs : List Record) : Option QuickMeta :=
  let s := rs.foldl qstep {}
  match s.firstTs with
  | none => none
  | some ft =>
    if ft.year < 2020 then none
    else
      some { date := ft
             durationSec := match s.lastTs with | some l => l.sec - ft.sec | none => 0
             preview := truncateText 80 (s.firstMsg.getD noPreviewS)
             messageCount := s.msgCount }

/-! ## Date filtering (`discover.discover_sessions` / `search.search_sessions`) -/

/-- The per-session date filter shared verbatim by `discover.py` and
`search.py`: with no bounds every session is kept; an unparseable session
date is kept; otherwise the session is dropped when its date is before the
after-bound or after the before-bound.  A comparison of an aware and a
naive datetime raises, which aborts the whole surrounding loop. -/
def sessionKeep (aT bT : Option Time) (d : Option Time) : Except Unit Bool :=
  if aT.isSome || bT.isSome then
    match d with
    | none => .ok true
    | some t =>
      let afterViol : Except Unit Bool :=
        match aT with
        | some a => pyLtTime t a
        | none => .ok false
      match afterViol with
      | .error e => .error e
      | .ok true => .ok false
      | .ok false =>
        match bT with
        | some b =>
          match pyLtTime b t with
          | .error e => .error e
          | .ok true => .ok false
          | .ok false => .ok true
        | none => .ok true
  else .ok true

/-- The session-collection loops of `discover_sessions` and
`search_sessions`: each session's quick-metadata date is re-parsed (always
successfully, hence `some m.date`) and the filter applied; a raised
comparison aborts the whole run. -/
def filterByDate (aT bT : Option Time) : List QuickMeta → Except Unit (List QuickMeta)
  | [] => .ok []
  | m :: ms =>
    match sessionKeep aT bT (some m.date) with
    | .error e => .error e
    | .ok true =>
      match filterByDate aT bT ms with
      | .error e => .error e
      | .ok rest => .ok (m :: rest)
    | .ok false => filterByDate aT bT ms

/-! ## Full structural parse (`parse.py`)

The Python parser keeps the current turn as a mutable dict that is
appended to the `turns` list and mutated afterwards; the list stores
references.  The model therefore keeps an `arena` of allocated turns and a
list `turnIdx` of arena indices: appending the current turn appends its
index, and a later mutation through the cursor is visible at every list
position holding that index, exactly like Python's aliasing. -/

/-- Model of `parse.extract_text_content`: raw string content is returned as is;
list content joins the texts of `text` blocks with newlines (`thinking`
and every other block type contribute nothing). -/
def extractTextContent : Content → Str
  | .str s => s
  | .blocks bs =>
    List.intercalate ['\n']
      (bs.filterMap (fun b => match b with | .text s => some s | _ => none))

/-- One tool call as recorded by the parser (`result` is attached when the
call is recorded). -/
structure ToolCall where
  id : Str
  name : Str
  input : List (Str × InputVal)
  result : Str
deriving DecidableEq, Repr

/-- Model of `parse.extract_tool_calls`: the `tool_use` blocks of list content, in
order; iterating a raw string finds no dict items, so string content
yields no calls.  `result` starts empty and is filled by `annotateCalls`. -/
def extractToolCalls : Content → List ToolCall
  | .str _ => []
  | .blocks bs =>
    bs.filterMap (fun b => match b with
      | .toolUse i n inp => some ⟨i, n, inp, []⟩
      | _ => none)

/-- The tool-result correlation map, modelling the Python dict by
most-recent-binding-first association lists: `mapGet` finds the newest
binding, so prepending models overwriting. -/
abbrev RMap := List (Str × Str)

/-- Model of Python `dict.get(key, "")`. -/
def mapGet (m : RMap) (k : Str) : Str :=
  match m.find? (fun p => p.1 = k) with
  | some p => p.2
  | none => []

/-- The text of one `tool_result` block's content: a raw string stands for
itself, list content joins the texts of nested `text` blocks with
newlines. -/
def rcontentText : RContent → Str
  | .str s => s
  | .blocks bs =>
    List.intercalate ['\n']
      (bs.filterMap (fun b => match b with | .text s => some s | _ => none))

/-- Model of `parse.extract_tool_results` merged into an existing map
(`tool_results.update(...)`): every `tool_result` block binds its
`tool_use_id` to its text, later blocks overwriting earlier ones. -/
def extractToolResults (bs : List Block) (m : RMap) : RMap :=
  bs.foldl
    (fun acc b => match b with
      | .toolResult tid c => (tid, rcontentText c) :: acc
      | _ => acc) m

/-- The user-record map update: only list content is scanned for
`tool_result` blocks. -/
def mergeRecordResults (c : Content) (m : RMap) : RMap :=
  match c with
  | .blocks bs => extractToolResults bs m
  | .str _ => m

/-- Attaching results at the moment the calls are recorded
(`tc["result"] = tool_results.get(tool_id, "")`). -/
def annotateCalls (m : RMap) (c : Content) : List ToolCall :=
  (extractToolCalls c).map (fun tc => { tc with result := mapGet m tc.id })

/-- One conversation turn as built by `parse_session`. -/
structure Turn where
  userMessage : Str
  assistantResponse : Str
  toolCalls : List ToolCall
  timestamp : TsField
  duration : Int
deriving DecidableEq, Repr

/-- The mutable state of the `parse_session` record loop. -/
structure PState where
  arena : List Turn := []
  turnIdx : List Nat := []
  cur : Option Nat := none
  resMap : RMap := []
  tokIn : Nat := 0
  tokOut : Nat := 0
  tokCR : Nat := 0
  tokCC : Nat := 0
  firstTs : Option Time := none
  lastTs : Option Time := none
deriving Repr

/-- The `user` branch of the record loop: append the current turn's index
(if any), merge tool results from list content, then start a new turn
unless the extracted text is blank — in which case the cursor is left
pointing at the turn that was just appended. -/
def userStep (s : PState) (r : Record) : PState :=
  let s :=
    match s.cur with
    | some i => { s with turnIdx := s.turnIdx ++ [i] }
    | none => s
  let s := { s with resMap := mergeRecordResults r.content s.resMap }
  let ut := extractTextContent r.content
  if pyStrip ut = [] then s
  else
    { s with arena := s.arena ++ [⟨ut, [], [], r.timestamp, 0⟩]
             cur := some s.arena.length }

def usageIn (u : Usage) : Nat := u.inputTokens.getD 0

def usageOut (u : Usage) : Nat := u.outputTokens.getD 0

def usageCR (u : Usage) : Nat := u.cacheRead.getD 0

def usageCC (u : Usage) : Nat := u.cacheCreate.getD 0

/-- The `assistant` branch: skipped entirely (tokens included) while no
turn is open; otherwise overwrite the open turn's assistant text, extend
its tool calls with the newly annotated ones, and accumulate usage. -/
def asstStep (s : PState) (r : Record) : PState :=
  match s.cur with
  | none => s
  | some i =>
    let calls := annotateCalls s.resMap r.content
    let arena2 :=
      match s.arena[i]? with
      | some t =>
        s.arena.set i
          { t with assistantResponse := extractTextContent r.content
                   toolCalls := t.toolCalls ++ calls }
      | none => s.arena
    { s with arena := arena2
             tokIn := s.tokIn + usageIn r.usage
             tokOut := s.tokOut + usageOut r.usage
             tokCR := s.tokCR + usageCR r.usage
             tokCC := s.tokCC + usageCC r.usage }

/-- One record of the `parse_session` loop: timestamp tracking happens for
every record, then the type dispatch. -/
def pstep (s : PState) (r : Record) : PState :=
  let tl := tsTrack s.firstTs s.lastTs r.timestamp.toOption
  let s := { s with firstTs := tl.1, lastTs := tl.2 }
  if r.rtype = userT then userStep s r
  else if r.rtype = assistantT then asstStep s r
  else s

def pfold (rs : List Record) : PState := rs.foldl pstep {}

/-- The turn-index list after the trailing `if current_turn:
turns.append(current_turn)`. -/
def finalIdx (rs : List Record) : List Nat :=
  let s := pfold rs
  match s.cur with
  | some i => s.turnIdx ++ [i]
  | none => s.turnIdx

/-- One iteration of the duration back-fill loop at list position `pos`.
The stored raw timestamp is re-parsed: a `missing` one makes
`parse_timestamp(None)` raise, aborting the whole call (`.error`); an
unparseable string yields "no value" and the turn is skipped; otherwise,
when a successor position exists and its turn's stored timestamp also
re-parses (again raising when it is `missing`), the difference is written
into this turn's arena slot.  A stored index out of range cannot occur
and leaves the arena unchanged. -/
def durStep (idx : List Nat) (arena : List Turn) (pos : Nat) :
    Except Unit (List Turn) :=
  match idx[pos]? with
  | none => .ok arena
  | some j =>
    match arena[j]? with
    | none => .ok arena
    | some t =>
      match t.timestamp with
      | .missing => .error ()
      | .unparseable => .ok arena
      | .parsed a =>
        match idx[pos + 1]? with
        | none => .ok arena
        | some j' =>
          match arena[j']? with
          | none => .ok arena
          | some t' =>
            match t'.timestamp with
            | .missing => .error ()
            | .unparseable => .ok arena
            | .parsed b => .ok (arena.set j { t with duration := b.sec - a.sec })

/-- The duration back-fill loop over a list of positions, propagating a
raised re-parse like the Python loop does. -/
def durRun (idx : List Nat) : List Nat → List Turn → Except Unit (List Turn)
  | [], arena => .ok arena
  | pos :: ps, arena =>
    match durStep idx arena pos with
    | .error e => .error e
    | .ok arena2 => durRun idx ps arena2

/-- The duration back-fill pass over every list position in order. -/
def durFold (idx : List Nat) (arena : List Turn) : Except Unit (List Turn) :=
  durRun idx (List.range idx.length) arena

/-- Whether the duration back-fill completes without raising (true exactly
when no turn in the list stores a missing timestamp field that the loop
re-parses). -/
def durOk (rs : List Record) : Bool :=
  match durFold (finalIdx rs) (pfold rs).arena with
  | .ok _ => true
  | .error _ => false

/-- The turns list returned by `parse_session` when it returns at all: the
indexed arena after the duration pass (every stored index is in range, so
the `filterMap` drops nothing).  On the crash path (`durFold` raises)
Python returns nothing; this total projection then returns `[]`, so
statements about its members or length speak only about the non-crashing
executions, and the crash itself is visible through `durFold` /
`parseSession`. -/
def parseTurns (rs : List Record) : List Turn :=
  match durFold (finalIdx rs) (pfold rs).arena with
  | .ok a => (finalIdx rs).filterMap (fun j => a[j]?)
  | .error _ => []

/-- The four token totals of `parse_session`
(input, output, cache-read, cache-create). -/
def parseTokens (rs : List Record) : Nat × Nat × Nat × Nat :=
  let s := pfold rs
  (s.tokIn, s.tokOut, s.tokCR, s.tokCC)

/-- Model of `parse.parse_session`: `none` for a missing file or a file with no
decodable records, otherwise the turns and token totals (the components
the claims are about). -/
def parseSession (rs : List Record) :
    Except Unit (Option (List Turn × (Nat × Nat × Nat × Nat))) :=
  if rs = [] then .ok none
  else
    match durFold (finalIdx rs) (pfold rs).arena with
    | .error e => .error e
    | .ok _ => .ok (some (parseTurns rs, parseTokens rs))

/-! ## Search (`search.py`) -/

/-- Model of `search.extract_text_from_record`, block by block: `text` blocks give
their text, `tool_use` blocks the string-valued input entries in order,
`tool_result` blocks their string content or the texts of nested `text`
blocks; the pieces are joined by single spaces. -/
def searchTexts : Content → List Str
  | .str s => [s]
  | .blocks bs =>
    bs.flatMap (fun b => match b with
      | .text s => [s]
      | .toolUse _ _ inp =>
        inp.filterMap (fun p => match p.2 with | .str v => some v | .other => none)
      | .toolResult _ c =>
        match c with
        | .str s => [s]
        | .blocks rbs =>
          rbs.filterMap (fun rb => match rb with | .text s => some s | _ => none)
      | _ => [])

def extractSearchText (r : Record) : Str :=
  List.intercalate [' '] (searchTexts r.content)

/-- Per-character case folding used to model `re.IGNORECASE` matching of a
literal (escaped) pattern. -/
def normC (ci : Bool) (c : Char) : Char := if ci then c.toLower else c

def normS (ci : Bool) (s : Str) : Str := s.map (normC ci)

/-- Index of the first occurrence of `p` as a contiguous substring of the
scanned list (`re.Pattern.search` on a literal pattern). -/
def firstOcc (p : Str) : Str → Option Nat
  | [] => if p = [] then some 0 else none
  | c :: rest =>
    if p.isPrefixOf (c :: rest) then some 0
    else (firstOcc p rest).map (· + 1)

/-- Window extraction around the match: the snippet core before
ellipsis markers are attached — the window from 50 characters before the
match start to 100 after the match end, newlines replaced by spaces and
the result stripped. -/
def matchWindow (q t : Str) (ms : Nat) : Str :=
  let start := ms - 50
  let stop := min t.length (ms + q.length + 100)
  pyStrip (((t.drop start).take (stop - start)).map (fun c => if c = '\n' then ' ' else c))

/-- One search hit of `search.search_session`. -/
structure SMatch where
  rtype : Str
  context : Str
  timestamp : TsField
deriving DecidableEq, Repr

def dotsS : Str := "...".data

/-- The per-record body of the `search_session` loop: ignore non-user,
non-assistant records and records with empty searchable text; otherwise
search for the first occurrence and build the context snippet with
ellipsis markers on the clipped sides. -/
def recordMatch (q : Str) (ci : Bool) (r : Record) : Option SMatch :=
  if r.rtype = userT ∨ r.rtype = assistantT then
    let t := extractSearchText r
    if t = [] then none
    else
      match firstOcc (normS ci q) (normS ci t) with
      | none => none
      | some ms =>
        some { rtype := r.rtype
               context :=
                 (if 0 < ms - 50 then dotsS else [])
                   ++ matchWindow q t ms
                   ++ (if min t.length (ms + q.length + 100) < t.length then dotsS else [])
               timestamp := r.timestamp }
  else none

/-- Model of `search.search_session` over the decoded records: matches appended in
record order. -/
def searchSession (q : Str) (ci : Bool) : List Record → List SMatch
  | [] => []
  | r :: rs =>
    match recordMatch q ci r with
    | some m => m :: searchSession q ci rs
    | none => searchSession q ci rs

/-! ## Definitions following the spec's words (for refinement claims) -/

/-- The content blocks of a record's message content (none for raw string
content). -/
def contentBlocks : Content → List Block
  | .str _ => []
  | .blocks bs => bs

/-- Written from the spec sentence for C1: "a tool call's result equals
the concatenation of every `tool_result` text block anywhere in the file
whose `tool_use_id` equals that call's `id`; if none exists, result is the
empty string." -/
def specToolResult (id : Str) (rs : List Record) : Str :=
  List.flatten
    ((rs.flatMap (fun r => contentBlocks r.content)).filterMap
      (fun b => match b with
        | .toolResult tid c => if tid = id then some (rcontentText c) else none
        | _ => none))

/-- Written from the spec sentence for C2: each token total as "the sum of
the corresponding usage field over every assistant record in the file". -/
def specTokens (rs : List Record) : Nat × Nat × Nat × Nat :=
  ((rs.filter (fun r => r.rtype = assistantT)).map (fun r => usageIn r.usage)).sum
    |> (fun a =>
      (a,
        ((rs.filter (fun r => r.rtype = assistantT)).map (fun r => usageOut r.usage)).sum,
        ((rs.filter (fun r => r.rtype = assistantT)).map (fun r => usageCR r.usage)).sum,
        ((rs.filter (fun r => r.rtype = assistantT)).map (fun r => usageCC r.usage)).sum))

/-- The amended C2 accumulation: usage of an assistant record counts
exactly when a user record with non-blank text appeared strictly earlier
(`opened` carries that flag along the record list). -/
def countedTok (f : Usage → Nat) : Bool → List Record → Nat
  | _, [] => 0
  | opened, r :: rest =>
    (if r.rtype = assistantT ∧ opened = true then f r.usage else 0)
      + countedTok f (opened || (r.rtype = userT && !(pyStrip (extractTextContent r.content) = [] : Bool))) rest

/-- The last-wins tool-result map accumulated over a record list: every
user record's list content merges its `tool_result` blocks (the amended
C1 reference map). -/
def resultsMap (rs : List Record) : RMap :=
  rs.foldl (fun m r => if r.rtype = userT then mergeRecordResults r.content m else m) []

/-- The first record whose timestamp parses, as tracked by the quick scan. -/
def firstParsedTs (rs : List Record) : Option Time :=
  rs.findSome? (fun r => r.timestamp.toOption)

/-- The first substantive user message text, as the quick scan defines it:
the first user record whose scanned preview text is non-empty and starts
with neither `<` nor `/`. -/
def firstSubstantiveMsg (rs : List Record) : Option Str :=
  rs.findSome? (fun r =>
    if r.rtype = userT ∧ substantiveText (previewText r.content) = true then
      some (previewText r.content)
    else none)

/-! ## Concrete inputs used by counterexamples and witnesses -/

def rc1u : Record := { rtype := userT, timestamp := .parsed ⟨true, 2024, 100⟩, content := .str "hi".data }

def rc1a : Record := { rtype := assistantT, timestamp := .parsed ⟨true, 2024, 110⟩, content := .blocks [.toolUse "t1".data "B".data []] }

def rc1r : Record := { rtype := userT, timestamp := .parsed ⟨true, 2024, 120⟩, content := .blocks [.toolResult "t1".data (.str "out".data)] }

/-- A session in canonical order: the tool result arrives in the user
record after the assistant record that issued the call. -/
def rsC1 : List Record := [rc1u, rc1a, rc1r]

/-- A file whose only record is an assistant record carrying usage. -/
def rsC2 : List Record := [{ rtype := assistantT, usage := { inputTokens := some 5 } }]

def rb1 : Record := { rtype := userT, timestamp := .parsed ⟨true, 2024, 100⟩, content := .str "hi".data }

def rb2 : Record := { rtype := assistantT, timestamp := .parsed ⟨true, 2024, 110⟩, content := .blocks [.text "resp1".data] }

def rb3 : Record := { rtype := userT, timestamp := .parsed ⟨true, 2024, 120⟩, content := .blocks [.toolResult "x".data (.str "ok".data)] }

def rb4 : Record := { rtype := assistantT, timestamp := .parsed ⟨true, 2024, 130⟩, content := .blocks [.text "resp2".data] }

def rb5 : Record := { rtype := userT, timestamp := .parsed ⟨true, 2024, 200⟩, content := .str "bye".data }

/-- Substantive user, assistant, tool-result-only user, second assistant,
second substantive user. -/
def rsC5 : List Record := [rb1, rb2, rb3, rb4, rb5]

def rd1 : Record := { rtype := userT, timestamp := .parsed ⟨true, 2025, 1000⟩, content := .str "go".data }

def rd2 : Record := { rtype := assistantT, timestamp := .parsed ⟨true, 2025, 1010⟩, content := .blocks [.text "a1".data] }

def rd3 : Record := { rtype := userT, timestamp := .parsed ⟨true, 2025, 1020⟩, content := .blocks [.toolResult "y".data (.str "r".data)] }

def rd4 : Record := { rtype := assistantT, timestamp := .parsed ⟨true, 2025, 1030⟩, content := .blocks [.text "a2".data] }

def rd5 : Record := { rtype := userT, timestamp := .parsed ⟨true, 2025, 2000⟩, content := .str "done".data }

/-- Same shape as `rsC5` with distinct timestamps, used for the duration
back-fill counterexample. -/
def rsC9 : List Record := [rd1, rd2, rd3, rd4, rd5]

/-- A record whose searchable text holds a newline just before the match. -/
def rC6 : Record := { rtype := userT, content := .str "ab\ncd".data }

/-- A record with empty searchable text. -/
def rC7 : Record := { rtype := userT, content := .str [] }

/-- Metadata rows for the date-filter scenario: one aware session date and
two naive ones around the naive bound. -/
def mAware : QuickMeta := { date := ⟨true, 2024, 500⟩, durationSec := 0, preview := [], messageCount := 1 }

def mNaiveLate : QuickMeta := { date := ⟨false, 2026, 150⟩, durationSec := 0, preview := [], messageCount := 1 }

def mNaiveEarly : QuickMeta := { date := ⟨false, 2026, 50⟩, durationSec := 0, preview := [], messageCount := 1 }

/-- The midnight bound produced by `parse_relative_date` (always naive). -/
def boundNaive : Time := ⟨false, 2026, 100⟩

/-- A small two-turn session with no continuation records. -/
def rsW : List Record :=
  [{ rtype := userT, timestamp := .parsed ⟨true, 2024, 10⟩, content := .str "one".data },
   { rtype := assistantT, timestamp := .parsed ⟨true, 2024, 40⟩, content := .blocks [.text "ans".data],
     usage := { inputTokens := some 3, outputTokens := some 7 } },
   { rtype := userT, timestamp := .parsed ⟨true, 2024, 70⟩, content := .str "two".data }]

/-- A record whose text contains the query with clutter around it. -/
def rW6 : Record := { rtype := userT, content := .str "hello Fix the bug".data }

/-- A session whose only turn-opening user record carries no timestamp
field at all: the duration back-fill re-parses the stored `None` and
raises. -/
def rsM : List Record := [{ rtype := userT, content := .str "hi".data }]

/-! # Theorems -/

/-- C10: mapping `/Users/a/proj` to a storage-directory name yields
`-Users-a-proj`, and the reverse mapping recovers `/Users/a/proj`. -/
theorem C10_storage_name_roundtrip :
    cwdToProjectName "/Users/a/proj".data = "-Users-a-proj".data ∧
      projectNameToCwd "-Users-a-proj".data = "/Users/a/proj".data := by
  decide

/-- C4: the date filter raises on the canonical aware (Z-suffixed) session
timestamp whenever a bound is present, aborting the whole run including
the later naive session; on naive timestamps the bound behaves as the
claimed range predicate. -/
theorem C4_aware_timestamp_aborts_filter :
    filterByDate (some boundNaive) none [mAware, mNaiveLate] = .error () ∧
      filterByDate (some boundNaive) none [mNaiveLate] = .ok [mNaiveLate] ∧
      filterByDate (some boundNaive) none [mNaiveEarly] = .ok [] :=
  ⟨rfl, rfl, rfl⟩

/-- C5: on the five-record sequence the parser returns three turns, the
first two being the very same turn, which carries the second assistant
record's response even though it was appended before that record was
processed. -/
theorem C5_duplicate_turns :
    (parseTurns rsC5).length = 3 ∧
      (parseTurns rsC5)[0]? = (parseTurns rsC5)[1]? ∧
      ((parseTurns rsC5)[0]?).map (fun t => t.assistantResponse) = some "resp2".data ∧
      ((parseTurns rsC5)[0]?).map (fun t => t.userMessage) = some "hi".data := by
  decide

/-- C1 counterexample: in the canonical order (call, then result in the
next user record) the recorded result is empty while the spec's
concatenation of matching `tool_result` blocks is `"out"`. -/
theorem C1_counterexample :
    ∃ t ∈ parseTurns rsC1, ∃ c ∈ t.toolCalls,
      c.result ≠ specToolResult c.id rsC1 := by
  decide

/-- C2 counterexample: an assistant record that precedes every turn is
skipped, so the parser's totals are zero while the per-record sums see
its usage. -/
theorem C2_counterexample :
    parseTokens rsC2 = (0, 0, 0, 0) ∧ specTokens rsC2 = (5, 0, 0, 0) ∧
      parseTokens rsC2 ≠ specTokens rsC2 := by
  decide

/-- C6 counterexample: the snippet has its newline replaced by a space, so
even with no ellipsis markers attached it is not a contiguous substring of
the record's searchable text. -/
theorem C6_counterexample :
    (searchSession "cd".data true [rC6]).map (fun m => m.context) = ["ab cd".data] ∧
      extractSearchText rC6 = "ab\ncd".data ∧
      ¬ ("ab cd".data <:+: "ab\ncd".data) := by
  decide

/-- C7 counterexample: a record whose searchable text is empty contains
the empty query, yet the engine produces no match for it. -/
theorem C7_counterexample :
    extractSearchText rC7 = [] ∧
      normS true ([] : Str) <:+: normS true (extractSearchText rC7) ∧
      searchSession [] true [rC7] = [] := by
  decide

/-- C9 counterexample: with the first two turn slots aliased, the first
turn's reported duration is 1000 although the next turn's timestamp minus
its own timestamp is 0. -/
theorem C9_counterexample :
    ((parseTurns rsC9)[0]?).map (fun t => t.duration) = some 1000 ∧
      ((parseTurns rsC9)[0]?).map (fun t => t.timestamp) = some (.parsed ⟨true, 2025, 1000⟩) ∧
      ((parseTurns rsC9)[1]?).map (fun t => t.timestamp) = some (.parsed ⟨true, 2025, 1000⟩) ∧
      (1000 : Int) ≠ 1000 - 1000 := by
  decide

theorem userT_ne_assistantT : userT ≠ assistantT := by decide

theorem assistantT_ne_userT : assistantT ≠ userT := by decide

theorem pstep_cur_isSome (s : PState) (r : Record) :
    (pstep s r).cur.isSome
      = (s.cur.isSome
          || (decide (r.rtype = userT)
                && !decide (pyStrip (extractTextContent r.content) = []))) := by
  unfold pstep userStep asstStep
  rcases s with ⟨arena, idx, cur, m, a, b, c, d, f, l⟩
  cases cur <;> by_cases hu : r.rtype = userT <;>
    by_cases hb : pyStrip (extractTextContent r.content) = [] <;>
    by_cases ha : r.rtype = assistantT <;>
    simp_all

theorem pstep_tokIn (s : PState) (r : Record) :
    (pstep s r).tokIn
      = s.tokIn + (if r.rtype = assistantT ∧ s.cur.isSome = true then usageIn r.usage else 0) := by
  unfold pstep userStep asstStep
  rcases s with ⟨arena, idx, cur, m, a, b, c, d, f, l⟩
  cases cur <;> by_cases hu : r.rtype = userT <;>
    by_cases hb : pyStrip (extractTextContent r.content) = [] <;>
    by_cases ha : r.rtype = assistantT <;>
    simp_all [userT_ne_assistantT, assistantT_ne_userT]

theorem pstep_tokOut (s : PState) (r : Record) :
    (pstep s r).tokOut
      = s.tokOut + (if r.rtype = assistantT ∧ s.cur.isSome = true then usageOut r.usage else 0) := by
  unfold pstep userStep asstStep
  rcases s with ⟨arena, idx, cur, m, a, b, c, d, f, l⟩
  cases cur <;> by_cases hu : r.rtype = userT <;>
    by_cases hb : pyStrip (extractTextContent r.content) = [] <;>
    by_cases ha : r.rtype = assistantT <;>
    simp_all [userT_ne_assistantT, assistantT_ne_userT]

theorem pstep_tokCR (s : PState) (r : Record) :
    (pstep s r).tokCR
      = s.tokCR + (if r.rtype = assistantT ∧ s.cur.isSome = true then usageCR r.usage else 0) := by
  unfold pstep userStep asstStep
  rcases s with ⟨arena, idx, cur, m, a, b, c, d, f, l⟩
  cases cur <;> by_cases hu : r.rtype = userT <;>
    by_cases hb : pyStrip (extractTextContent r.content) = [] <;>
    by_cases ha : r.rtype = assistantT <;>
    simp_all [userT_ne_assistantT, assistantT_ne_userT]

theorem pstep_tokCC (s : PState) (r : Record) :
    (pstep s r).tokCC
      = s.tokCC + (if r.rtype = assistantT ∧ s.cur.isSome = true then usageCC r.usage else 0) := by
  unfold pstep userStep asstStep
  rcases s with ⟨arena, idx, cur, m, a, b, c, d, f, l⟩
  cases cur <;> by_cases hu : r.rtype = userT <;>
    by_cases hb : pyStrip (extractTextContent r.content) = [] <;>
    by_cases ha : r.rtype = assistantT <;>
    simp_all [userT_ne_assistantT, assistantT_ne_userT]

theorem foldl_countedTok (f : Usage → Nat) (proj : PState → Nat)
    (hstep : ∀ s r, proj (pstep s r)
      = proj s + (if r.rtype = assistantT ∧ s.cur.isSome = true then f r.usage else 0)) :
    ∀ (rs : List Record) (s : PState),
      proj (rs.foldl pstep s) = proj s + countedTok f s.cur.isSome rs := by
  intro rs
  induction rs with
  | nil => intro s; simp [countedTok]
  | cons r rest ih =>
    intro s
    simp only [List.foldl_cons, countedTok]
    rw [ih (pstep s r), hstep, pstep_cur_isSome]
    omega

/-- C2 (amended): each token total equals the sum of the corresponding
usage field over the assistant records that appear after the first user
record with non-blank text; assistant records before that boundary are
skipped. -/
theorem C2_token_totals_after_first_turn (rs : List Record) :
    parseTokens rs
      = (countedTok usageIn false rs, countedTok usageOut false rs,
          countedTok usageCR false rs, countedTok usageCC false rs) := by
  unfold parseTokens pfold
  have h1 := foldl_countedTok usageIn (fun s => s.tokIn) pstep_tokIn rs {}
  have h2 := foldl_countedTok usageOut (fun s => s.tokOut) pstep_tokOut rs {}
  have h3 := foldl_countedTok usageCR (fun s => s.tokCR) pstep_tokCR rs {}
  have h4 := foldl_countedTok usageCC (fun s => s.tokCC) pstep_tokCC rs {}
  simp only at h1 h2 h3 h4
  simp [h1, h2, h3, h4]

theorem qstep_msgCount (s : QState) (r : Record) :
    (qstep s r).msgCount
      = s.msgCount + (if r.rtype = userT ∨ r.rtype = assistantT then 1 else 0) := by
  unfold qstep
  by_cases hu : r.rtype = userT <;> by_cases ha : r.rtype = assistantT <;>
    by_cases hm : s.firstMsg = none <;>
    by_cases hs : substantiveText (previewText r.content) = true <;>
    simp_all

theorem foldl_msgCount (rs : List Record) : ∀ s : QState,
    (rs.foldl qstep s).msgCount
      = s.msgCount + rs.countP (fun r => decide (r.rtype = userT ∨ r.rtype = assistantT)) := by
  induction rs with
  | nil => intro s; simp
  | cons r rest ih =>
    intro s
    simp only [List.foldl_cons, List.countP_cons]
    rw [ih (qstep s r), qstep_msgCount]
    by_cases h : r.rtype = userT ∨ r.rtype = assistantT <;> simp [h] <;> omega

theorem pstep_turnIdx_le (s : PState) (r : Record) :
    (pstep s r).turnIdx.length + (if (pstep s r).cur.isSome = true then 1 else 0)
      ≤ s.turnIdx.length + (if s.cur.isSome = true then 1 else 0)
          + (if r.rtype = userT then 1 else 0) := by
  unfold pstep userStep asstStep
  rcases s with ⟨arena, idx, cur, m, a, b, c, d, f, l⟩
  cases cur <;> by_cases hu : r.rtype = userT <;>
    by_cases hb : pyStrip (extractTextContent r.content) = [] <;>
    by_cases ha : r.rtype = assistantT <;>
    simp_all

theorem foldl_turnIdx_le (rs : List Record) : ∀ s : PState,
    (rs.foldl pstep s).turnIdx.length
        + (if (rs.foldl pstep s).cur.isSome = true then 1 else 0)
      ≤ s.turnIdx.length + (if s.cur.isSome = true then 1 else 0)
          + rs.countP (fun r => decide (r.rtype = userT)) := by
  induction rs with
  | nil => intro s; simp
  | cons r rest ih =>
    intro s
    simp only [List.foldl_cons, List.countP_cons]
    have h1 := ih (pstep s r)
    have h2 := pstep_turnIdx_le s r
    by_cases h : r.rtype = userT
    · simp [h] at h2 ⊢
      omega
    · simp [h] at h2 ⊢
      omega

theorem finalIdx_length (rs : List Record) :
    (finalIdx rs).length
      = (pfold rs).turnIdx.length + (if (pfold rs).cur.isSome = true then 1 else 0) := by
  unfold finalIdx
  cases h : (pfold rs).cur <;> simp [h]

/-- C3: the quick scan's message count (user plus assistant records) is at
least the number of turns the full parser produces for the same file. -/
theorem C3_message_count_ge_turn_count (rs : List Record) (m : QuickMeta)
    (h : getSessionQuickMetadata rs = some m) :
    (parseTurns rs).length ≤ m.messageCount := by
  have hcount : m.messageCount
      = rs.countP (fun r => decide (r.rtype = userT ∨ r.rtype = assistantT)) := by
    unfold getSessionQuickMetadata at h
    rcases hft : (rs.foldl qstep {}).firstTs with _ | ft
    · simp [hft] at h
    · simp only [hft] at h
      by_cases hy : ft.year < 2020
      · simp [hy] at h
      · simp only [hy, if_false] at h
        have := foldl_msgCount rs {}
        simp only at this
        cases h
        simpa using this
  have h1 : (parseTurns rs).length ≤ (finalIdx rs).length := by
    unfold parseTurns
    rcases hd : durFold (finalIdx rs) (pfold rs).arena with e | a <;> simp only [hd]
    · simp
    · exact List.length_filterMap_le _ _
  have h2 := foldl_turnIdx_le rs {}
  have h3 := finalIdx_length rs
  have h4 : rs.countP (fun r => decide (r.rtype = userT))
      ≤ rs.countP (fun r => decide (r.rtype = userT ∨ r.rtype = assistantT)) := by
    refine List.countP_mono_left (fun r _ h => ?_)
    simp at h ⊢
    exact Or.inl h
  rw [hcount]
  unfold pfold at h2 h3
  simp at h2
  omega

/-- Witness for C3 at a concrete three-record session. -/
theorem C3_witness : (parseTurns rsW).length ≤ 3 := by
  have h : getSessionQuickMetadata rsW
      = some { date := ⟨true, 2024, 10⟩, durationSec := 60,
               preview := "one".data, messageCount := 3 } := by decide
  simpa using C3_message_count_ge_turn_count rsW _ h

theorem qstep_firstTs (s : QState) (r : Record) :
    (qstep s r).firstTs
      = match s.firstTs with
        | some f => some f
        | none => r.timestamp.toOption := by
  unfold qstep tsTrack
  rcases s with ⟨fm, ft, lt, n⟩
  cases ft <;> cases hr : r.timestamp <;>
    by_cases hu : r.rtype = userT <;> by_cases ha : r.rtype = assistantT <;>
    by_cases hm : fm = none <;>
    by_cases hs : substantiveText (previewText r.content) = true <;>
    simp_all [TsField.toOption]

theorem foldl_firstTs (rs : List Record) : ∀ s : QState,
    (rs.foldl qstep s).firstTs
      = match s.firstTs with
        | some f => some f
        | none => firstParsedTs rs := by
  induction rs with
  | nil => intro s; cases h : s.firstTs <;> simp [firstParsedTs, h]
  | cons r rest ih =>
    intro s
    simp only [List.foldl_cons]
    rw [ih (qstep s r), qstep_firstTs]
    unfold firstParsedTs
    cases hf : s.firstTs <;> cases ht : r.timestamp <;>
      simp [List.findSome?_cons, ht, TsField.toOption]

theorem qstep_firstMsg (s : QState) (r : Record) :
    (qstep s r).firstMsg
      = match s.firstMsg with
        | some m => some m
        | none =>
          if r.rtype = userT ∧ substantiveText (previewText r.content) = true then
            some (previewText r.content)
          else none := by
  unfold qstep
  rcases s with ⟨fm, ft, lt, n⟩
  cases fm <;>
    by_cases hu : r.rtype = userT <;> by_cases ha : r.rtype = assistantT <;>
    by_cases hs : substantiveText (previewText r.content) = true <;>
    simp_all

theorem foldl_firstMsg (rs : List Record) : ∀ s : QState,
    (rs.foldl qstep s).firstMsg
      = match s.firstMsg with
        | some m => some m
        | none => firstSubstantiveMsg rs := by
  induction rs with
  | nil => intro s; cases h : s.firstMsg <;> simp [firstSubstantiveMsg, h]
  | cons r rest ih =>
    intro s
    simp only [List.foldl_cons]
    rw [ih (qstep s r), qstep_firstMsg]
    unfold firstSubstantiveMsg
    cases hf : s.firstMsg <;>
      by_cases hc : r.rtype = userT ∧ substantiveText (previewText r.content) = true <;>
      simp [List.findSome?_cons, hc]

theorem pyRStrip_length_le (s : Str) : (pyRStrip s).length ≤ s.length := by
  unfold pyRStrip
  calc ((s.reverse.dropWhile pyWSb).reverse).length
      = (s.reverse.dropWhile pyWSb).length := by rw [List.length_reverse]
    _ ≤ s.reverse.length := (List.dropWhile_suffix pyWSb).length_le
    _ = s.length := by rw [List.length_reverse]

theorem truncateText_length_le (n : Nat) (s : Str) (h : 3 ≤ n) :
    (truncateText n s).length ≤ n := by
  unfold truncateText
  split
  · assumption
  · have h1 := pyRStrip_length_le (s.take (n - 3))
    have h2 : (s.take (n - 3)).length ≤ n - 3 := by
      simp [List.length_take]
    simp only [List.length_append, List.length_cons, List.length_nil]
    omega

/-- C8: the quick scan returns no result exactly when no timestamp ever
parsed or the first parsed timestamp's year is before 2020; otherwise the
preview is the first substantive user message truncated to at most 80
characters, defaulting to the literal `"(no preview)"`. -/
theorem C8_quick_metadata_contract (rs : List Record) :
    (getSessionQuickMetadata rs = none
        ↔ firstParsedTs rs = none
            ∨ ∃ t, firstParsedTs rs = some t ∧ t.year < 2020) ∧
      (∀ m, getSessionQuickMetadata rs = some m →
        m.preview = truncateText 80 ((firstSubstantiveMsg rs).getD noPreviewS)
          ∧ m.preview.length ≤ 80) := by
  have hft := foldl_firstTs rs {}
  have hfm := foldl_firstMsg rs {}
  simp only at hft hfm
  unfold getSessionQuickMetadata
  simp only [hft, hfm]
  cases hf : firstParsedTs rs with
  | none => simp
  | some t =>
    by_cases hy : t.year < 2020
    · simp [hy]
    · constructor
      · simp [hy]
      · intro m hm
        simp only [hy, if_false] at hm
        cases hm
        refine ⟨rfl, ?_⟩
        exact truncateText_length_le 80 _ (by omega)

/-- Witness for C8 at the concrete three-record session. -/
theorem C8_witness :
    ("one".data : Str) = truncateText 80 ((firstSubstantiveMsg rsW).getD noPreviewS)
      ∧ ("one".data : Str).length ≤ 80 := by
  have h := (C8_quick_metadata_contract rsW).2
    { date := ⟨true, 2024, 10⟩, durationSec := 60, preview := "one".data, messageCount := 3 }
    (by decide)
  simpa using h

theorem pstep_resMap (s : PState) (r : Record) :
    (pstep s r).resMap
      = if r.rtype = userT then mergeRecordResults r.content s.resMap else s.resMap := by
  unfold pstep userStep asstStep
  rcases s with ⟨arena, idx, cur, m, a, b, c, d, f, l⟩
  cases cur <;> by_cases hu : r.rtype = userT <;>
    by_cases hb : pyStrip (extractTextContent r.content) = [] <;>
    by_cases ha : r.rtype = assistantT <;>
    simp_all

theorem foldl_resMap (rs : List Record) : ∀ s : PState,
    (rs.foldl pstep s).resMap
      = rs.foldl
          (fun m r => if r.rtype = userT then mergeRecordResults r.content m else m)
          s.resMap := by
  induction rs with
  | nil => intro s; simp
  | cons r rest ih =>
    intro s
    simp only [List.foldl_cons]
    rw [ih (pstep s r), pstep_resMap]

theorem pfold_resMap (rs : List Record) : (pfold rs).resMap = resultsMap rs := by
  unfold pfold resultsMap
  exact foldl_resMap rs {}

theorem pstep_arena_mem (s : PState) (r : Record) (t : Turn)
    (ht : t ∈ (pstep s r).arena) :
    t ∈ s.arena
      ∨ t.toolCalls = []
      ∨ ∃ t0 ∈ s.arena, r.rtype = assistantT
          ∧ t.toolCalls = t0.toolCalls ++ annotateCalls s.resMap r.content := by
  rcases s with ⟨arena, idx, cur, m, a, b, c, d, f, l⟩
  unfold pstep userStep asstStep at ht
  by_cases hu : r.rtype = userT
  · simp only [hu, if_true] at ht
    by_cases hb : pyStrip (extractTextContent r.content) = [] <;> cases cur <;>
      simp only [hb, ite_true, ite_false] at ht
    · exact Or.inl ht
    · exact Or.inl ht
    · rcases List.mem_append.mp ht with h1 | h1
      · exact Or.inl h1
      · rw [List.mem_singleton] at h1
        exact Or.inr (Or.inl (by rw [h1]))
    · rcases List.mem_append.mp ht with h1 | h1
      · exact Or.inl h1
      · rw [List.mem_singleton] at h1
        exact Or.inr (Or.inl (by rw [h1]))
  · by_cases ha : r.rtype = assistantT
    · simp only [hu, ha, if_false, if_true, ite_true, ite_false] at ht
      cases hcur : cur with
      | none => simp_all
      | some i =>
        simp only [hcur] at ht
        rcases hi : arena[i]? with _ | t0
        · simp_all
        · simp only [hi] at ht
          rcases List.mem_or_eq_of_mem_set ht with hmem | heq
          · exact Or.inl hmem
          · refine Or.inr (Or.inr ⟨t0, List.getElem?_mem hi, ha, ?_⟩)
            rw [heq]
    · simp_all

theorem arena_call_provenance (rs : List Record) :
    ∀ t ∈ (pfold rs).arena, ∀ c ∈ t.toolCalls,
      ∃ k r, rs[k]? = some r ∧ r.rtype = assistantT
        ∧ c ∈ annotateCalls (resultsMap (rs.take k)) r.content := by
  induction rs using List.reverseRecOn with
  | nil => intro t ht; simp [pfold] at ht
  | append_singleton rs r ih =>
    intro t ht c hc
    have hfold : pfold (rs ++ [r]) = pstep (pfold rs) r := by
      unfold pfold
      simp [List.foldl_append]
    rw [hfold] at ht
    have weaken :
        (∃ k r', rs[k]? = some r' ∧ r'.rtype = assistantT
            ∧ c ∈ annotateCalls (resultsMap (rs.take k)) r'.content) →
        ∃ k r', (rs ++ [r])[k]? = some r' ∧ r'.rtype = assistantT
            ∧ c ∈ annotateCalls (resultsMap ((rs ++ [r]).take k)) r'.content := by
      rintro ⟨k, r', hk, hty, hmem⟩
      have hklt : k < rs.length := (List.getElem?_eq_some.mp hk).1
      refine ⟨k, r', ?_, hty, ?_⟩
      · rw [List.getElem?_append_left hklt]
        exact hk
      · rw [List.take_append_of_le_length (le_of_lt hklt)]
        exact hmem
    rcases pstep_arena_mem (pfold rs) r t ht with hold | hempty | ⟨t0, ht0, hty, hcalls⟩
    · exact weaken (ih t hold c hc)
    · rw [hempty] at hc
      simp at hc
    · rw [hcalls] at hc
      rcases List.mem_append.mp hc with hleft | hright
      · exact weaken (ih t0 ht0 c hleft)
      · refine ⟨rs.length, r, ?_, hty, ?_⟩
        · rw [List.getElem?_append_right (Nat.le_refl _)]
          simp
        · rw [List.take_left]
          rw [pfold_resMap] at hright
          exact hright

theorem durStep_ok_fields (idx : List Nat) (a : List Turn) (pos : Nat) (a2 : List Turn)
    (hok : durStep idx a pos = .ok a2) (j : Nat) (t' : Turn) (h : a2[j]? = some t') :
    ∃ t, a[j]? = some t ∧ t'.userMessage = t.userMessage
      ∧ t'.assistantResponse = t.assistantResponse
      ∧ t'.toolCalls = t.toolCalls ∧ t'.timestamp = t.timestamp := by
  unfold durStep at hok
  rcases h1 : idx[pos]? with _ | jj <;> simp only [h1] at hok
  · injection hok with hok
    subst hok
    exact ⟨t', h, rfl, rfl, rfl, rfl⟩
  · rcases h2 : a[jj]? with _ | tt <;> simp only [h2] at hok
    · injection hok with hok
      subst hok
      exact ⟨t', h, rfl, rfl, rfl, rfl⟩
    · rcases h3 : tt.timestamp with _ | _ | ta <;> simp only [h3] at hok
      · exact Except.noConfusion hok
      · injection hok with hok
        subst hok
        exact ⟨t', h, rfl, rfl, rfl, rfl⟩
      · rcases h4 : idx[pos + 1]? with _ | jj' <;> simp only [h4] at hok
        · injection hok with hok
          subst hok
          exact ⟨t', h, rfl, rfl, rfl, rfl⟩
        · rcases h5 : a[jj']? with _ | tt' <;> simp only [h5] at hok
          · injection hok with hok
            subst hok
            exact ⟨t', h, rfl, rfl, rfl, rfl⟩
          · rcases h6 : tt'.timestamp with _ | _ | tb <;> simp only [h6] at hok
            · exact Except.noConfusion hok
            · injection hok with hok
              subst hok
              exact ⟨t', h, rfl, rfl, rfl, rfl⟩
            · injection hok with hok
              subst hok
              by_cases hj : jj = j
              · subst hj
                have hlen := (List.getElem?_eq_some.mp h2).1
                rw [List.getElem?_set_self hlen] at h
                injection h with h
                rw [← h]
                exact ⟨tt, h2, rfl, rfl, rfl, h3.symm⟩
              · rw [List.getElem?_set_ne hj] at h
                exact ⟨t', h, rfl, rfl, rfl, rfl⟩

theorem durRun_ok_fields (idx : List Nat) (ps : List Nat) :
    ∀ (a A : List Turn), durRun idx ps a = .ok A →
      ∀ (j : Nat) (t' : Turn), A[j]? = some t' →
      ∃ t, a[j]? = some t ∧ t'.userMessage = t.userMessage
        ∧ t'.assistantResponse = t.assistantResponse
        ∧ t'.toolCalls = t.toolCalls ∧ t'.timestamp = t.timestamp := by
  induction ps with
  | nil =>
    intro a A hok j t' h
    simp only [durRun] at hok
    injection hok with hok
    subst hok
    exact ⟨t', h, rfl, rfl, rfl, rfl⟩
  | cons p ps ih =>
    intro a A hok j t' h
    simp only [durRun] at hok
    rcases hs : durStep idx a p with e | a2 <;> simp only [hs] at hok
    · exact Except.noConfusion hok
    · rcases ih a2 A hok j t' h with ⟨t1, h1, e1, e2, e3, e4⟩
      rcases durStep_ok_fields idx a p a2 hs j t1 h1 with ⟨t0, h0, f1, f2, f3, f4⟩
      exact ⟨t0, h0, e1.trans f1, e2.trans f2, e3.trans f3, e4.trans f4⟩

theorem parseTurns_mem_arena (rs : List Record) (t : Turn) (h : t ∈ parseTurns rs) :
    ∃ t0 ∈ (pfold rs).arena, t.userMessage = t0.userMessage
      ∧ t.assistantResponse = t0.assistantResponse
      ∧ t.toolCalls = t0.toolCalls ∧ t.timestamp = t0.timestamp := by
  unfold parseTurns at h
  rcases hok : durFold (finalIdx rs) (pfold rs).arena with e | A <;> simp only [hok] at h
  · simp at h
  · rcases List.mem_filterMap.mp h with ⟨j, _, hsome⟩
    have hrun : durRun (finalIdx rs) (List.range (finalIdx rs).length) (pfold rs).arena
        = .ok A := hok
    rcases durRun_ok_fields (finalIdx rs) (List.range (finalIdx rs).length)
        (pfold rs).arena A hrun j t hsome with ⟨t0, h0, e1, e2, e3, e4⟩
    exact ⟨t0, List.getElem?_mem h0, e1, e2, e3, e4⟩

/-- C1 (amended): every recorded tool call was issued by some assistant
record and carries the result looked up, at the moment that record was
processed, in the last-wins map of the `tool_result` blocks of the records
strictly preceding it — not the concatenation of all matching blocks in
the whole file. -/
theorem C1_result_from_preceding_records (rs : List Record) :
    ∀ t ∈ parseTurns rs, ∀ c ∈ t.toolCalls,
      ∃ k r, rs[k]? = some r ∧ r.rtype = assistantT
        ∧ c ∈ annotateCalls (resultsMap (rs.take k)) r.content := by
  intro t ht c hc
  rcases parseTurns_mem_arena rs t ht with ⟨t0, ht0, _, _, hcalls, _⟩
  exact arena_call_provenance rs t0 ht0 c (hcalls ▸ hc)

/-- Witness for C1 at the concrete three-record session. -/
theorem C1_witness :
    ∃ k r, rsC1[k]? = some r ∧ r.rtype = assistantT
      ∧ (⟨"t1".data, "B".data, [], []⟩ : ToolCall)
          ∈ annotateCalls (resultsMap (rsC1.take k)) r.content :=
  C1_result_from_preceding_records rsC1
    ⟨"hi".data, [], [⟨"t1".data, "B".data, [], []⟩], .parsed ⟨true, 2024, 100⟩, 0⟩
    (by decide) _ (by decide)

theorem durStep_ok_length (idx : List Nat) (a : List Turn) (pos : Nat) (a2 : List Turn)
    (hok : durStep idx a pos = .ok a2) : a2.length = a.length := by
  unfold durStep at hok
  repeat' split at hok
  all_goals first
    | exact Except.noConfusion hok
    | (injection hok with hok
       subst hok
       first | rfl | simp [List.length_set])

theorem durRun_ok_length (idx : List Nat) (ps : List Nat) :
    ∀ a A : List Turn, durRun idx ps a = .ok A → A.length = a.length := by
  induction ps with
  | nil =>
    intro a A hok
    simp only [durRun] at hok
    injection hok with hok
    subst hok
    rfl
  | cons p ps ih =>
    intro a A hok
    simp only [durRun] at hok
    rcases hs : durStep idx a p with e | a2 <;> simp only [hs] at hok
    · exact Except.noConfusion hok
    · rw [ih a2 A hok, durStep_ok_length idx a p a2 hs]

theorem durStep_ok_frame (idx : List Nat) (a : List Turn) (pos j : Nat) (a2 : List Turn)
    (h : ∀ jj, idx[pos]? = some jj → jj ≠ j)
    (hok : durStep idx a pos = .ok a2) : a2[j]? = a[j]? := by
  unfold durStep at hok
  rcases h1 : idx[pos]? with _ | jj <;> simp only [h1] at hok
  · injection hok with hok
    subst hok
    rfl
  · have hne := h jj h1
    repeat' split at hok
    all_goals first
      | exact Except.noConfusion hok
      | (injection hok with hok
         subst hok
         first | rfl | exact List.getElem?_set_ne hne)

theorem durRun_ok_frame (idx : List Nat) (ps : List Nat) :
    ∀ (a A : List Turn) (j : Nat),
      (∀ pos ∈ ps, ∀ jj, idx[pos]? = some jj → jj ≠ j) →
      durRun idx ps a = .ok A → A[j]? = a[j]? := by
  induction ps with
  | nil =>
    intro a A j _ hok
    simp only [durRun] at hok
    injection hok with hok
    subst hok
    rfl
  | cons p ps ih =>
    intro a A j h hok
    simp only [durRun] at hok
    rcases hs : durStep idx a p with e | a2 <;> simp only [hs] at hok
    · exact Except.noConfusion hok
    · rw [ih a2 A j (fun pos hpos => h pos (List.mem_cons_of_mem p hpos)) hok,
        durStep_ok_frame idx a p j a2 (h p (List.mem_cons_self p ps)) hs]

theorem durRun_ok_timestamp (idx : List Nat) (ps : List Nat) (a A : List Turn)
    (hok : durRun idx ps a = .ok A) (j : Nat) :
    (A[j]?).map (fun t => t.timestamp) = (a[j]?).map (fun t => t.timestamp) := by
  rcases hL : A[j]? with _ | t'
  · rw [List.getElem?_eq_none_iff] at hL
    rw [durRun_ok_length idx ps a A hok] at hL
    rw [List.getElem?_eq_none_iff.mpr hL]
  · rcases durRun_ok_fields idx ps a A hok j t' hL with ⟨t, ht, _, _, _, e4⟩
    rw [ht]
    simp [e4]

theorem durRun_append (idx : List Nat) (ps1 ps2 : List Nat) :
    ∀ a : List Turn, durRun idx (ps1 ++ ps2) a
      = match durRun idx ps1 a with
        | .error e => .error e
        | .ok b => durRun idx ps2 b := by
  induction ps1 with
  | nil => intro a; rfl
  | cons p ps1 ih =>
    intro a
    simp only [List.cons_append, durRun]
    rcases hs : durStep idx a p with e | a2 <;> simp only [hs]
    exact ih a2

theorem nodup_getElem_ne (idx : List Nat) (h : idx.Nodup) (p q j : Nat)
    (hp : idx[p]? = some j) (hq : p ≠ q) :
    ∀ jj, idx[q]? = some jj → jj ≠ j := by
  intro jj hjj heq
  subst heq
  obtain ⟨hp1, hp2⟩ := List.getElem?_eq_some.mp hp
  obtain ⟨hq1, hq2⟩ := List.getElem?_eq_some.mp hjj
  exact hq (h.getElem_inj_iff.mp (hp2.trans hq2.symm))

theorem durRun_nodup_get (idx : List Nat) (a : List Turn) (hnd : idx.Nodup)
    (pos j : Nat) (hj : idx[pos]? = some j) (t : Turn) (hjt : a[j]? = some t)
    (A : List Turn) (hok : durFold idx a = .ok A) :
    A[j]? = some { t with duration :=
        match t.timestamp,
          ((idx[pos + 1]?).bind (fun j' => (a[j']?).map (fun t' => t'.timestamp))
            : Option TsField) with
        | TsField.parsed ta, some (TsField.parsed tb) => tb.sec - ta.sec
        | _, _ => t.duration } := by
  obtain ⟨um, ar, tc, ts, du⟩ := t
  have hpos : pos < idx.length := (List.getElem?_eq_some.mp hj).1
  unfold durFold at hok
  rw [List.range_eq_range'] at hok
  have hsplit : List.range' 0 idx.length
      = List.range' 0 pos ++ List.range' pos (idx.length - pos) := by
    have h2 := List.range'_append 0 pos (idx.length - pos) 1
    simp only [Nat.zero_add, Nat.one_mul] at h2
    have h3 : idx.length - pos + pos = idx.length := by omega
    rw [h3] at h2
    exact h2.symm
  rw [hsplit, durRun_append] at hok
  rcases hr1 : durRun idx (List.range' 0 pos) a with e | a1 <;> rw [hr1] at hok
  · exact Except.noConfusion hok
  · have hk : idx.length - pos = (idx.length - pos - 1) + 1 := by omega
    rw [hk, List.range'_succ] at hok
    simp only [durRun] at hok
    have hjt1 : a1[j]? = some ⟨um, ar, tc, ts, du⟩ := by
      rw [durRun_ok_frame idx (List.range' 0 pos) a a1 j ?_ hr1, hjt]
      intro p hp
      have hlt : p < pos := by
        have := List.mem_range'_1.mp hp
        omega
      exact nodup_getElem_ne idx hnd pos p j hj (by omega)
    rcases hs : durStep idx a1 pos with e | a2 <;> simp only [hs] at hok
    · exact Except.noConfusion hok
    · have hA2 : A[j]? = a2[j]? := by
        refine durRun_ok_frame idx _ a2 A j (fun p hp => ?_) hok
        have hgt : pos + 1 ≤ p := by
          have := List.mem_range'_1.mp hp
          omega
        exact nodup_getElem_ne idx hnd pos p j hj (by omega)
      rw [hA2]
      unfold durStep at hs
      simp only [hj, hjt1] at hs
      rcases ts with _ | _ | ta
      · exact Except.noConfusion hs
      · injection hs with hs
        subst hs
        rw [hjt1]
      · rcases hnext : idx[pos + 1]? with _ | j' <;> simp only [hnext] at hs
        · injection hs with hs
          subst hs
          rw [hjt1]
          rfl
        · simp only [Option.some_bind]
          have htsmap : (a1[j']?).map (fun x => x.timestamp)
              = (a[j']?).map (fun x => x.timestamp) :=
            durRun_ok_timestamp idx (List.range' 0 pos) a a1 hr1 j'
          rcases hnb : a[j']? with _ | tdd
          · have h1n : a1[j']? = none := by
              rw [hnb] at htsmap
              simpa using htsmap
            simp only [h1n] at hs
            injection hs with hs
            subst hs
            rw [hjt1]
            rfl
          · obtain ⟨um2, ar2, tc2, ts2, du2⟩ := tdd
            simp only [Option.map_some']
            rcases h1s : a1[j']? with _ | t1
            · rw [h1s, hnb] at htsmap
              simp at htsmap
            · rw [h1s, hnb] at htsmap
              simp only [Option.map_some', Option.some_inj] at htsmap
              simp only [h1s] at hs
              rcases ts2 with _ | _ | tb <;> rw [htsmap] at hs
              · exact Except.noConfusion hs
              · injection hs with hs
                subst hs
                rw [hjt1]
              · injection hs with hs
                subst hs
                have hjlen : j < a1.length := (List.getElem?_eq_some.mp hjt1).1
                rw [List.getElem?_set_self hjlen]

theorem pstep_arena_dur (s : PState) (r : Record) (t : Turn)
    (ht : t ∈ (pstep s r).arena) :
    t ∈ s.arena ∨ t.duration = 0 ∨ ∃ t0 ∈ s.arena, t.duration = t0.duration := by
  rcases s with ⟨arena, idx, cur, m, a, b, c, d, f, l⟩
  unfold pstep userStep asstStep at ht
  by_cases hu : r.rtype = userT
  · simp only [hu, if_true] at ht
    by_cases hb : pyStrip (extractTextContent r.content) = [] <;> cases cur <;>
      simp only [hb, ite_true, ite_false] at ht
    · exact Or.inl ht
    · exact Or.inl ht
    · rcases List.mem_append.mp ht with h1 | h1
      · exact Or.inl h1
      · rw [List.mem_singleton] at h1
        exact Or.inr (Or.inl (by rw [h1]))
    · rcases List.mem_append.mp ht with h1 | h1
      · exact Or.inl h1
      · rw [List.mem_singleton] at h1
        exact Or.inr (Or.inl (by rw [h1]))
  · by_cases ha : r.rtype = assistantT
    · simp only [hu, ha, if_false, if_true, ite_true, ite_false] at ht
      cases hcur : cur with
      | none => simp_all
      | some i =>
        simp only [hcur] at ht
        rcases hi : arena[i]? with _ | t0
        · simp_all
        · simp only [hi] at ht
          rcases List.mem_or_eq_of_mem_set ht with hmem | heq
          · exact Or.inl hmem
          · refine Or.inr (Or.inr ⟨t0, List.getElem?_mem hi, ?_⟩)
            rw [heq]
    · simp_all

theorem pfold_arena_duration (rs : List Record) :
    ∀ t ∈ (pfold rs).arena, t.duration = 0 := by
  induction rs using List.reverseRecOn with
  | nil => intro t ht; simp [pfold] at ht
  | append_singleton rs r ih =>
    intro t ht
    have hfold : pfold (rs ++ [r]) = pstep (pfold rs) r := by
      unfold pfold
      simp [List.foldl_append]
    rw [hfold] at ht
    rcases pstep_arena_dur (pfold rs) r t ht with hold | h0 | ⟨t0, ht0, heq⟩
    · exact ih t hold
    · exact h0
    · rw [heq]
      exact ih t0 ht0

theorem pstep_valid (s : PState) (r : Record)
    (h1 : ∀ j ∈ s.turnIdx, j < s.arena.length)
    (h2 : ∀ j, s.cur = some j → j < s.arena.length) :
    (∀ j ∈ (pstep s r).turnIdx, j < (pstep s r).arena.length)
      ∧ ∀ j, (pstep s r).cur = some j → j < (pstep s r).arena.length := by
  rcases s with ⟨arena, idx, cur, m, a, b, c, d, f, l⟩
  simp only at h1 h2
  unfold pstep userStep asstStep
  by_cases hu : r.rtype = userT
  · rw [if_pos hu]
    by_cases hb : pyStrip (extractTextContent r.content) = [] <;> cases hcur : cur <;>
      simp only [hb, hcur, ite_true, ite_false]
    · exact ⟨h1, fun j hj => by simp at hj⟩
    · refine ⟨fun j hj => ?_, fun j hj => ?_⟩
      · rcases List.mem_append.mp hj with hm | hm
        · exact h1 j hm
        · rw [List.mem_singleton] at hm
          rw [hm]
          exact h2 _ hcur
      · simp only [Option.some_inj] at hj
        rw [← hj]
        exact h2 _ hcur
    · refine ⟨fun j hj => ?_, fun j hj => ?_⟩
      · simp only [List.length_append, List.length_singleton]
        have := h1 j hj
        omega
      · simp only [Option.some_inj] at hj
        rw [← hj]
        simp [List.length_append]
    · refine ⟨fun j hj => ?_, fun j hj => ?_⟩
      · simp only [List.length_append, List.length_singleton]
        rcases List.mem_append.mp hj with hm | hm
        · have := h1 j hm
          omega
        · rw [List.mem_singleton] at hm
          have := h2 _ hcur
          rw [hm]
          omega
      · simp only [Option.some_inj] at hj
        rw [← hj]
        simp [List.length_append]
  · rw [if_neg hu]
    by_cases ha : r.rtype = assistantT
    · rw [if_pos ha]
      cases hcur : cur with
      | none =>
        refine ⟨fun j hj => h1 j hj, fun j hj => ?_⟩
        exact absurd hj (by simp)
      | some i =>
        rcases hi : arena[i]? with _ | t0 <;> simp only [hi]
        · refine ⟨fun j hj => h1 j hj, fun j hj => ?_⟩
          simp only [Option.some_inj] at hj
          rw [← hj]
          exact h2 _ hcur
        · refine ⟨fun j hj => ?_, fun j hj => ?_⟩
          · rw [List.length_set]
            exact h1 j hj
          · simp only [Option.some_inj] at hj
            rw [← hj, List.length_set]
            exact h2 _ hcur
    · rw [if_neg ha]
      exact ⟨h1, h2⟩

theorem pfold_valid (rs : List Record) :
    (∀ j ∈ (pfold rs).turnIdx, j < (pfold rs).arena.length)
      ∧ ∀ j, (pfold rs).cur = some j → j < (pfold rs).arena.length := by
  induction rs using List.reverseRecOn with
  | nil =>
    constructor
    · intro j hj; simp [pfold] at hj
    · intro j hj; simp [pfold] at hj
  | append_singleton rs r ih =>
    have hfold : pfold (rs ++ [r]) = pstep (pfold rs) r := by
      unfold pfold
      simp [List.foldl_append]
    rw [hfold]
    exact pstep_valid (pfold rs) r ih.1 ih.2

theorem finalIdx_valid (rs : List Record) :
    ∀ j ∈ finalIdx rs, j < (pfold rs).arena.length := by
  intro j hj
  unfold finalIdx at hj
  rcases hcur : (pfold rs).cur with _ | i <;> simp only [hcur] at hj
  · exact (pfold_valid rs).1 j hj
  · rcases List.mem_append.mp hj with hm | hm
    · exact (pfold_valid rs).1 j hm
    · rw [List.mem_singleton] at hm
      subst hm
      exact (pfold_valid rs).2 j hcur

theorem filterMap_getElem_of_isSome {α β : Type} (g : α → Option β) (l : List α)
    (h : ∀ x ∈ l, (g x).isSome) :
    ∀ pos : Nat, (l.filterMap g)[pos]? = (l[pos]?).bind g := by
  induction l with
  | nil => intro pos; simp
  | cons x l ih =>
    intro pos
    have hx := h x (List.mem_cons_self x l)
    rcases hgx : g x with _ | b
    · rw [hgx] at hx; simp at hx
    · rw [List.filterMap_cons_some hgx]
      cases pos with
      | zero => simp [hgx]
      | succ pos =>
        simp only [List.getElem?_cons_succ]
        exact ih (fun y hy => h y (List.mem_cons_of_mem x hy)) pos

theorem parseTurns_getElem (rs : List Record) (A : List Turn)
    (hok : durFold (finalIdx rs) (pfold rs).arena = .ok A) (pos : Nat) :
    (parseTurns rs)[pos]? = ((finalIdx rs)[pos]?).bind (fun j => A[j]?) := by
  unfold parseTurns
  simp only [hok]
  refine filterMap_getElem_of_isSome _ _ (fun j hj => ?_) pos
  have hlt := finalIdx_valid rs j hj
  have hlen : A.length = (pfold rs).arena.length := by
    unfold durFold at hok
    exact durRun_ok_length (finalIdx rs) _ _ A hok
  have hjd : j < A.length := by omega
  simp [List.getElem?_eq_getElem hjd]

/-- C9 (amended): when the turns list holds no aliased duplicate (its
index list is duplicate-free) and the duration back-fill completes — it
raises an uncaught exception instead whenever a reached turn stores a
missing timestamp field, as the second conjunct exhibits on a one-turn
session without timestamps — every turn's duration equals the next turn's
timestamp minus its own in seconds, unclamped, 0 when either stored
timestamp is an unparseable string, and the last turn's duration is 0. -/
theorem C9_turn_durations :
    (∀ rs : List Record, (finalIdx rs).Nodup → durOk rs = true →
      ∀ (pos : Nat) (t : Turn), (parseTurns rs)[pos]? = some t →
        t.duration
          = match (parseTurns rs)[pos + 1]? with
            | none => 0
            | some t' =>
              match t.timestamp, t'.timestamp with
              | .parsed ta, .parsed tb => tb.sec - ta.sec
              | _, _ => 0)
    ∧ durFold (finalIdx rsM) (pfold rsM).arena = .error () := by
  constructor
  · intro rs hnd hok pos t hpt
    rcases hA : durFold (finalIdx rs) (pfold rs).arena with e | A
    · unfold durOk at hok
      rw [hA] at hok
      simp at hok
    · rw [parseTurns_getElem rs A hA] at hpt
      rcases hidx : (finalIdx rs)[pos]? with _ | j
      · rw [hidx] at hpt
        simp at hpt
      · rw [hidx, Option.some_bind] at hpt
        have hjlt : j < (pfold rs).arena.length :=
          finalIdx_valid rs j (List.getElem?_mem hidx)
        rcases harena : (pfold rs).arena[j]? with _ | t0
        · rw [List.getElem?_eq_none_iff] at harena
          omega
        · have hdur0 : t0.duration = 0 :=
            pfold_arena_duration rs t0 (List.getElem?_mem harena)
          have hget := durRun_nodup_get (finalIdx rs) (pfold rs).arena hnd pos j hidx
            t0 harena A hA
          rw [hget] at hpt
          injection hpt with hpt
          rw [parseTurns_getElem rs A hA]
          rcases hnext : (finalIdx rs)[pos + 1]? with _ | j'
          · simp only [hnext, Option.none_bind] at hpt ⊢
            rw [← hpt]
            cases t0.timestamp <;> simp [hdur0]
          · simp only [hnext, Option.some_bind] at hpt ⊢
            have hj'lt : j' < (pfold rs).arena.length :=
              finalIdx_valid rs j' (List.getElem?_mem hnext)
            have hlen : A.length = (pfold rs).arena.length := by
              unfold durFold at hA
              exact durRun_ok_length (finalIdx rs) _ _ A hA
            rcases hget' : A[j']? with _ | t1
            · rw [List.getElem?_eq_none_iff] at hget'
              omega
            · have hts : (A[j']?).map (fun x => x.timestamp)
                  = ((pfold rs).arena[j']?).map (fun x => x.timestamp) := by
                unfold durFold at hA
                exact durRun_ok_timestamp (finalIdx rs) _ _ A hA j'
              rw [hget'] at hts
              rw [← hpt, ← hts]
              simp only [Option.map_some']
              cases ht0 : t0.timestamp <;> cases ht1 : t1.timestamp <;>
                simp [hdur0, ht0, ht1]
  · rfl

/-- Witness for C9 at the concrete two-turn session whose index list is
duplicate-free and whose back-fill completes. -/
theorem C9_witness :
    (finalIdx rsW).Nodup ∧ durOk rsW = true ∧
      ((⟨"one".data, "ans".data, [], .parsed ⟨true, 2024, 10⟩, 60⟩ : Turn)).duration
        = match (parseTurns rsW)[0 + 1]? with
          | none => 0
          | some t' =>
            match (⟨"one".data, "ans".data, [], .parsed ⟨true, 2024, 10⟩, 60⟩ : Turn).timestamp,
              t'.timestamp with
            | .parsed ta, .parsed tb => tb.sec - ta.sec
            | _, _ => 0 :=
  ⟨by decide, by decide,
    C9_turn_durations.1 rsW (by decide) (by decide) 0
      ⟨"one".data, "ans".data, [], .parsed ⟨true, 2024, 10⟩, 60⟩ (by decide)⟩

theorem firstOcc_sound (p : Str) : ∀ (l : Str) (i : Nat), firstOcc p l = some i →
    p <+: l.drop i ∧ i + p.length ≤ l.length := by
  intro l
  induction l with
  | nil =>
    intro i h
    unfold firstOcc at h
    by_cases hp : p = []
    · rw [if_pos hp] at h
      injection h with h
      subst hp
      rw [← h]
      exact ⟨ List.nil_prefix, by simp⟩
    · rw [if_neg hp] at h
      exact absurd h (by simp)
  | cons c rest ih =>
    intro i h
    unfold firstOcc at h
    by_cases hp : p.isPrefixOf (c :: rest)
    · rw [if_pos hp] at h
      injection h with h
      rw [← h]
      have hpre := List.isPrefixOf_iff_prefix.mp hp
      exact ⟨hpre, by simpa using hpre.length_le⟩
    · rw [if_neg hp] at h
      rcases Option.map_eq_some'.mp h with ⟨i', hi', hadd⟩
      rcases ih i' hi' with ⟨h1, h2⟩
      rw [← hadd]
      refine ⟨by simpa using h1, ?_⟩
      simp only [List.length_cons]
      omega

theorem firstOcc_least (p : Str) : ∀ (l : Str) (i : Nat), firstOcc p l = some i →
    ∀ j < i, ¬ p <+: l.drop j := by
  intro l
  induction l with
  | nil =>
    intro i h j hj
    unfold firstOcc at h
    by_cases hp : p = []
    · rw [if_pos hp] at h
      injection h with h
      omega
    · rw [if_neg hp] at h
      exact absurd h (by simp)
  | cons c rest ih =>
    intro i h j hj
    unfold firstOcc at h
    by_cases hp : p.isPrefixOf (c :: rest)
    · rw [if_pos hp] at h
      injection h with h
      omega
    · rw [if_neg hp] at h
      rcases Option.map_eq_some'.mp h with ⟨i', hi', hadd⟩
      cases j with
      | zero =>
        intro hpre
        exact hp ( List.isPrefixOf_iff_prefix.mpr (by simpa using hpre))
      | succ j =>
        have hji : j < i' := by omega
        intro hpre
        exact ih i' hi' j hji (by simpa using hpre)

theorem firstOcc_complete (p : Str) : ∀ (l : Str) (j : Nat), p <+: l.drop j →
    (firstOcc p l).isSome = true := by
  intro l
  induction l with
  | nil =>
    intro j h
    rw [List.drop_nil] at h
    rw [List.prefix_nil] at h
    subst h
    rfl
  | cons c rest ih =>
    intro j h
    unfold firstOcc
    by_cases hp : p.isPrefixOf (c :: rest)
    · rw [if_pos hp]
      rfl
    · rw [if_neg hp]
      cases j with
      | zero =>
        rw [List.drop_zero] at h
        exact absurd ( List.isPrefixOf_iff_prefix.mpr h) hp
      | succ j =>
        have hs := ih j (by simpa using h)
        rcases Option.isSome_iff_exists.mp hs with ⟨i', hi'⟩
        rw [hi']
        rfl

theorem infix_iff_exists_drop (p l : Str) : p <:+: l ↔ ∃ j, p <+: l.drop j := by
  constructor
  · rintro ⟨s, t, hst⟩
    refine ⟨s.length, ?_⟩
    have hd : l.drop s.length = p ++ t := by
      rw [← hst, List.append_assoc, List.drop_left]
    rw [hd]
    exact ⟨t, rfl⟩
  · rintro ⟨j, u, hu⟩
    exact ⟨l.take j, u, by rw [List.append_assoc, hu, List.take_append_drop]⟩

theorem firstOcc_isSome_iff (p l : Str) : (firstOcc p l).isSome = true ↔ p <:+: l := by
  constructor
  · intro h
    rcases ho : firstOcc p l with _ | i
    · rw [ho] at h
      simp at h
    · rcases firstOcc_sound p l i ho with ⟨h1, _⟩
      exact (infix_iff_exists_drop p l).mpr ⟨i, h1⟩
  · intro h
    rcases (infix_iff_exists_drop p l).mp h with ⟨j, hj⟩
    exact firstOcc_complete p l j hj

theorem normS_length (ci : Bool) (l : Str) : (normS ci l).length = l.length :=
  List.length_map l (normC ci)

theorem matched_slice (ci : Bool) (q t : Str) (ms : Nat)
    (h : firstOcc (normS ci q) (normS ci t) = some ms) :
    normS ci ((t.drop ms).take q.length) = normS ci q ∧ ms + q.length ≤ t.length := by
  rcases firstOcc_sound _ _ _ h with ⟨hpre, hlen⟩
  rw [normS_length, normS_length] at hlen
  have hdrop : (normS ci t).drop ms = normS ci (t.drop ms) :=
    (List.map_drop (normC ci) t ms).symm
  rw [hdrop] at hpre
  have htake := List.prefix_iff_eq_take.mp hpre
  constructor
  · have hmt : normS ci ((t.drop ms).take q.length)
        = (normS ci (t.drop ms)).take (normS ci q).length := by
      rw [normS_length]
      exact List.map_take (normC ci) (t.drop ms) q.length
    rw [hmt, ← htake]
  · exact hlen

theorem pyLStrip_infix (s : Str) : pyLStrip s <:+: s :=
  List.IsSuffix.isInfix (List.dropWhile_suffix pyWSb)

theorem pyRStrip_infix (s : Str) : pyRStrip s <:+: s := by
  unfold pyRStrip
  rw [← List.reverse_infix, List.reverse_reverse]
  exact List.IsSuffix.isInfix (List.dropWhile_suffix pyWSb)

theorem pyStrip_infix (s : Str) : pyStrip s <:+: s :=
  Trans.trans ( pyRStrip_infix (pyLStrip s)) ( pyLStrip_infix s)

theorem infix_dropWhile_of_head (m : Str) (hne : m ≠ [])
    (hhead : ∀ c, m.head? = some c → pyWSb c = false) :
    ∀ w : Str, m <:+: w → m <:+: w.dropWhile pyWSb := by
  intro w
  induction w with
  | nil =>
    intro hm
    rw [List.infix_nil] at hm
    exact absurd hm hne
  | cons c w ih =>
    intro hm
    by_cases hc : pyWSb c = true
    · rw [List.dropWhile_cons_of_pos hc]
      apply ih
      rcases hm with ⟨s, t, hst⟩
      cases s with
      | nil =>
        cases m with
        | nil => exact absurd rfl hne
        | cons cm m' =>
          simp only [List.nil_append, List.cons_append, List.cons.injEq] at hst
          have hcm := hhead cm rfl
          rw [hst.1] at hcm
          rw [hcm] at hc
          exact absurd hc (by simp)
      | cons s0 s' =>
        simp only [List.cons_append, List.cons.injEq] at hst
        exact ⟨s', t, hst.2⟩
    · rw [List.dropWhile_cons_of_neg hc]
      exact hm

theorem infix_pyStrip_of_edges (m w : Str) (hm : m <:+: w) (hne : m ≠ [])
    (hhead : ∀ c, m.head? = some c → pyWSb c = false)
    (hlast : ∀ c, m.reverse.head? = some c → pyWSb c = false) :
    m <:+: pyStrip w := by
  unfold pyStrip pyRStrip
  have h1 : m <:+: pyLStrip w := infix_dropWhile_of_head m hne hhead w hm
  have h2 : m.reverse <:+: (pyLStrip w).reverse := List.reverse_infix.mpr h1
  have h3 : m.reverse <:+: ((pyLStrip w).reverse).dropWhile pyWSb :=
    infix_dropWhile_of_head m.reverse (by simpa using hne) hlast _ h2
  rw [← List.reverse_infix, List.reverse_reverse]
  exact h3

theorem slice_infix (l : Str) (a k : Nat) : (l.drop a).take k <:+: l :=
  ⟨l.take a, (l.drop a).drop k, by
    rw [List.append_assoc, List.take_append_drop, List.take_append_drop]⟩

theorem slice_in_window (t : Str) (start ms k m' : Nat)
    (h1 : start ≤ ms) (h2 : (ms - start) + k ≤ m') :
    (t.drop ms).take k <:+: (t.drop start).take m' := by
  have hdd : t.drop ms = (t.drop start).drop (ms - start) := by
    rw [List.drop_drop]
    congr 1
    omega
  rw [hdd]
  have hdt : ((t.drop start).take m').drop (ms - start)
      = ((t.drop start).drop (ms - start)).take (m' - (ms - start)) :=
    List.drop_take ..
  have hkk : ((t.drop start).drop (ms - start)).take k
      = (((t.drop start).take m').drop (ms - start)).take k := by
    rw [hdt, List.take_take]
    congr 1
    omega
  rw [hkk]
  exact slice_infix ((t.drop start).take m') (ms - start) k

theorem nlMap_eq_self (w : Str) (h : '\n' ∉ w) :
    w.map (fun c => if c = '\n' then ' ' else c) = w := by
  have step : ∀ c ∈ w, (if c = '\n' then ' ' else c) = c := by
    intro c hc
    rw [if_neg]
    intro hnl
    subst hnl
    exact h hc
  rw [List.map_congr_left step]
  exact List.map_id' w

theorem normC_nl (ci : Bool) : normC ci '\n' = '\n' := by
  cases ci <;> decide

theorem ws_normC (ci : Bool) (c : Char) (h : pyWSb c = true) : normC ci c = c := by
  unfold pyWSb at h
  simp only [Bool.or_eq_true, decide_eq_true_eq] at h
  rcases h with ((((h | h) | h) | h) | h) | h <;> subst h <;> cases ci <;> decide

theorem no_nl_of_norm (ci : Bool) (w q : Str) (heq : normS ci w = normS ci q)
    (h : '\n' ∉ normS ci q) : '\n' ∉ w := by
  intro hw
  apply h
  rw [← heq]
  have hmem := List.mem_map_of_mem (normC ci) hw
  rwa [normC_nl] at hmem

theorem head_not_ws_of_norm (ci : Bool) (w q : Str) (heq : normS ci w = normS ci q)
    (h : ∀ c, (normS ci q).head? = some c → pyWSb c = false) :
    ∀ c, w.head? = some c → pyWSb c = false := by
  intro c hc
  by_contra hws
  have hws' : pyWSb c = true := by
    cases hx : pyWSb c
    · exact absurd hx hws
    · rfl
  have h1 : (normS ci w).head? = some (normC ci c) := by
    unfold normS
    rw [List.head?_map, hc]
    rfl
  rw [heq] at h1
  have h2 := h _ h1
  rw [ws_normC ci c hws'] at h2
  rw [hws'] at h2
  exact absurd h2 (by simp)

theorem normS_reverse (ci : Bool) (l : Str) :
    normS ci l.reverse = (normS ci l).reverse :=
  List.map_reverse (normC ci) l

theorem searchSession_eq_filterMap (q : Str) (ci : Bool) (rs : List Record) :
    searchSession q ci rs = rs.filterMap (recordMatch q ci) := by
  induction rs with
  | nil => rfl
  | cons r rest ih =>
    unfold searchSession
    rw [List.filterMap_cons]
    cases recordMatch q ci r <;> simp [ih]

theorem recordMatch_isSome_iff (q : Str) (ci : Bool) (r : Record) :
    (recordMatch q ci r).isSome = true
      ↔ (r.rtype = userT ∨ r.rtype = assistantT) ∧ extractSearchText r ≠ []
          ∧ normS ci q <:+: normS ci (extractSearchText r) := by
  unfold recordMatch
  by_cases hty : r.rtype = userT ∨ r.rtype = assistantT
  · rw [if_pos hty]
    by_cases htxt : extractSearchText r = []
    · rw [if_pos htxt]
      simp [htxt]
    · rw [if_neg htxt]
      rcases hocc : firstOcc (normS ci q) (normS ci (extractSearchText r)) with _ | ms
      · have hni : ¬ normS ci q <:+: normS ci (extractSearchText r) := by
          intro hinf
          have hs := (firstOcc_isSome_iff _ _).mpr hinf
          rw [hocc] at hs
          simp at hs
        simp [hni, htxt, hty]
      · have hinf : normS ci q <:+: normS ci (extractSearchText r) := by
          rcases firstOcc_sound _ _ _ hocc with ⟨h1, _⟩
          exact (infix_iff_exists_drop _ _).mpr ⟨ms, h1⟩
        simp [hinf, htxt, hty]
  · rw [if_neg hty]
    simp [hty]

theorem recordMatch_some (q : Str) (ci : Bool) (r : Record) (m : SMatch)
    (h : recordMatch q ci r = some m) :
    m.rtype = r.rtype ∧ m.timestamp = r.timestamp
      ∧ ∃ ms, firstOcc (normS ci q) (normS ci (extractSearchText r)) = some ms
          ∧ m.context
              = (if 0 < ms - 50 then dotsS else [])
                  ++ matchWindow q (extractSearchText r) ms
                  ++ (if min (extractSearchText r).length (ms + q.length + 100)
                        < (extractSearchText r).length then dotsS else []) := by
  unfold recordMatch at h
  by_cases hty : r.rtype = userT ∨ r.rtype = assistantT
  · rw [if_pos hty] at h
    by_cases htxt : extractSearchText r = []
    · rw [if_pos htxt] at h
      exact absurd h (by simp)
    · rw [if_neg htxt] at h
      rcases hocc : firstOcc (normS ci q) (normS ci (extractSearchText r)) with _ | ms <;>
        rw [hocc] at h
      · exact absurd h (by simp)
      · injection h with h
        rw [← h]
        exact ⟨rfl, rfl, ms, rfl, rfl⟩
  · rw [if_neg hty] at h
    exact absurd h (by simp)

/-- C7 (amended): for every user/assistant record whose searchable text is
non-empty and contains the query, the engine produces exactly one match in
record order (the `filterMap` shape), located at the first occurrence
(existence plus leastness), with the context window built from up to 50
characters before the match and 100 after, newlines replaced by spaces and
the result stripped, and an ellipsis marker exactly on each clipped side.
A record with empty searchable text is skipped even when it contains the
(empty) query. -/
theorem C7_search_contract (q : Str) (ci : Bool) (rs : List Record) :
    searchSession q ci rs = rs.filterMap (recordMatch q ci)
      ∧ (∀ r : Record,
          (recordMatch q ci r).isSome = true
            ↔ (r.rtype = userT ∨ r.rtype = assistantT) ∧ extractSearchText r ≠ []
                ∧ normS ci q <:+: normS ci (extractSearchText r))
      ∧ ∀ (r : Record) (m : SMatch), recordMatch q ci r = some m →
          m.rtype = r.rtype ∧ m.timestamp = r.timestamp
            ∧ ∃ ms, firstOcc (normS ci q) (normS ci (extractSearchText r)) = some ms
                ∧ (∀ j < ms, ¬ normS ci q <+: (normS ci (extractSearchText r)).drop j)
                ∧ m.context = (if 0 < ms - 50 then dotsS else [])
                    ++ matchWindow q (extractSearchText r) ms
                    ++ (if min (extractSearchText r).length (ms + q.length + 100)
                          < (extractSearchText r).length then dotsS else []) := by
  refine ⟨searchSession_eq_filterMap q ci rs, fun r => recordMatch_isSome_iff q ci r,
    fun r m h => ?_⟩
  rcases recordMatch_some q ci r m h with ⟨h1, h2, ms, hocc, hctx⟩
  exact ⟨h1, h2, ms, hocc, firstOcc_least _ _ _ hocc, hctx⟩

/-- C6 (amended): every returned context, stripped of its ellipsis
markers, is a contiguous substring of the record's searchable text after
newlines are replaced by spaces (not of the raw text), and it contains the
query up to case folding whenever the folded query has no newline and
neither starts nor ends with whitespace. -/
theorem C6_snippet_invariant (q : Str) (ci : Bool) (rs : List Record) (m : SMatch)
    (hm : m ∈ searchSession q ci rs) :
    ∃ r ∈ rs, ∃ core : Str,
      (m.context = core ∨ m.context = dotsS ++ core ∨ m.context = core ++ dotsS
          ∨ m.context = dotsS ++ core ++ dotsS)
        ∧ core <:+: (extractSearchText r).map (fun c => if c = '\n' then ' ' else c)
        ∧ ('\n' ∉ normS ci q →
            (∀ c, (normS ci q).head? = some c → pyWSb c = false) →
            (∀ c, (normS ci q).reverse.head? = some c → pyWSb c = false) →
            ∃ w, w <:+: core ∧ normS ci w = normS ci q) := by
  rw [searchSession_eq_filterMap] at hm
  rcases List.mem_filterMap.mp hm with ⟨r, hr, hrm⟩
  rcases recordMatch_some q ci r m hrm with ⟨_, _, ms, hocc, hctx⟩
  refine ⟨r, hr, matchWindow q (extractSearchText r) ms, ?_, ?_, ?_⟩
  · rw [hctx]
    by_cases hL : 0 < ms - 50 <;>
      by_cases hR : min (extractSearchText r).length (ms + q.length + 100)
        < (extractSearchText r).length <;>
      simp [hL, hR]
  · have h1 : matchWindow q (extractSearchText r) ms
        <:+: (((extractSearchText r).drop (ms - 50)).take
              (min (extractSearchText r).length (ms + q.length + 100) - (ms - 50))).map
            (fun c => if c = '\n' then ' ' else c) := by
      unfold matchWindow
      exact pyStrip_infix _
    have h2 : ((extractSearchText r).drop (ms - 50)).take
          (min (extractSearchText r).length (ms + q.length + 100) - (ms - 50))
        <:+: extractSearchText r := slice_infix (extractSearchText r) _ _
    exact h1.trans (h2.map _)
  · intro hnl hhead hlast
    by_cases hq : q = []
    · subst hq
      exact ⟨[], List.nil_infix, rfl⟩
    · obtain ⟨hweq, hble⟩ := matched_slice ci q (extractSearchText r) ms hocc
      have hwlen : (((extractSearchText r).drop ms).take q.length).length = q.length := by
        have hc := congrArg List.length hweq
        rw [normS_length, normS_length] at hc
        exact hc
      have hwne : ((extractSearchText r).drop ms).take q.length ≠ [] := by
        intro hnil
        apply hq
        apply List.length_eq_zero.mp
        rw [← hwlen, hnil]
        rfl
      have hnlw : '\n' ∉ ((extractSearchText r).drop ms).take q.length :=
        no_nl_of_norm ci _ q hweq hnl
      have hheadw : ∀ c, (((extractSearchText r).drop ms).take q.length).head? = some c →
          pyWSb c = false := head_not_ws_of_norm ci _ q hweq hhead
      have hlastw : ∀ c, (((extractSearchText r).drop ms).take q.length).reverse.head? = some c →
          pyWSb c = false := by
        apply head_not_ws_of_norm ci _ q.reverse
        · rw [normS_reverse, normS_reverse, hweq]
        · intro c hc
          rw [normS_reverse] at hc
          exact hlast c hc
      have hwin : ((extractSearchText r).drop ms).take q.length
          <:+: ((extractSearchText r).drop (ms - 50)).take
              (min (extractSearchText r).length (ms + q.length + 100) - (ms - 50)) :=
        slice_in_window (extractSearchText r) (ms - 50) ms q.length _ (Nat.sub_le ms 50)
          (by omega)
      have hwmap : ((extractSearchText r).drop ms).take q.length
          <:+: (((extractSearchText r).drop (ms - 50)).take
              (min (extractSearchText r).length (ms + q.length + 100) - (ms - 50))).map
            (fun c => if c = '\n' then ' ' else c) := by
        have hmapped := hwin.map (fun c => if c = '\n' then ' ' else c)
        rwa [nlMap_eq_self _ hnlw] at hmapped
      refine ⟨((extractSearchText r).drop ms).take q.length, ?_, hweq⟩
      unfold matchWindow
      exact infix_pyStrip_of_edges _ _ hwmap hwne hheadw hlastw

/-- Witness for C7 at the concrete record and query. -/
theorem C7_witness :
    (⟨userT, "hello Fix the bug".data, .missing⟩ : SMatch).rtype = rW6.rtype
      ∧ (⟨userT, "hello Fix the bug".data, .missing⟩ : SMatch).timestamp = rW6.timestamp
      ∧ ∃ ms, firstOcc (normS true "fix".data) (normS true (extractSearchText rW6)) = some ms
          ∧ (∀ j < ms, ¬ normS true "fix".data <+: (normS true (extractSearchText rW6)).drop j)
          ∧ (⟨userT, "hello Fix the bug".data, .missing⟩ : SMatch).context
              = (if 0 < ms - 50 then dotsS else [])
                  ++ matchWindow "fix".data (extractSearchText rW6) ms
                  ++ (if min (extractSearchText rW6).length (ms + ("fix".data).length + 100)
                        < (extractSearchText rW6).length then dotsS else []) :=
  (C7_search_contract "fix".data true [rW6]).2.2 rW6
    ⟨userT, "hello Fix the bug".data, .missing⟩ (by decide)

/-- Witness for C6 at the concrete record and query. -/
theorem C6_witness :
    ∃ r ∈ [rW6], ∃ core : Str,
      ((⟨userT, "hello Fix the bug".data, .missing⟩ : SMatch).context = core
          ∨ (⟨userT, "hello Fix the bug".data, .missing⟩ : SMatch).context = dotsS ++ core
          ∨ (⟨userT, "hello Fix the bug".data, .missing⟩ : SMatch).context = core ++ dotsS
          ∨ (⟨userT, "hello Fix the bug".data, .missing⟩ : SMatch).context = dotsS ++ core ++ dotsS)
        ∧ core <:+: (extractSearchText r).map (fun c => if c = '\n' then ' ' else c)
        ∧ ('\n' ∉ normS true "fix".data →
            (∀ c, (normS true "fix".data).head? = some c → pyWSb c = false) →
            (∀ c, (normS true "fix".data).reverse.head? = some c → pyWSb c = false) →
            ∃ w, w <:+: core ∧ normS true w = normS true "fix".data) :=
  C6_snippet_invariant "fix".data true [rW6]
    ⟨userT, "hello Fix the bug".data, .missing⟩ (by decide)
